import Mathlib

/-!
Shallow embedding of the preprocessing pipeline of `preprocess.py`
(tokenization, padding, word counting, vocabulary building and the
parallel uncommon-word rewrite), together with theorems settling the
specification claims about it.

Comments are modelled as Lean `String`s; a corpus (the `comment_text`
column of the csv file) is a `List String`; a Python `dict` (which
preserves insertion order) is an association list.
-/

namespace Toxic

/-! ## Python string primitives

Python's `str.split(sep)` with an explicit one-character separator and
`sep.join` are modelled on the character list of the string.
`"".split(' ')` yields `['']`, and in general split always yields one
more piece than there are separator occurrences. -/

/-- Python `s.split(sep)` for a single-character separator, on character
lists: splitting the empty list yields one empty piece. -/
def splitChars (sep : Char) : List Char → List (List Char)
  | [] => [[]]
  | c :: rest =>
    if c = sep then [] :: splitChars sep rest
    else (splitChars sep rest).modifyHead (c :: ·)

/-- Python `sep.join(pieces)` for a single-character separator, on
character lists. -/
def joinChars (sep : Char) : List (List Char) → List Char
  | [] => []
  | [piece] => piece
  | piece :: rest => piece ++ sep :: joinChars sep rest

/-- Python `comment.split(' ')`. -/
def pySplitSpace (s : String) : List String :=
  (splitChars ' ' s.data).map String.mk

/-- Python `' '.join(words)`. -/
def pyJoinSpace (words : List String) : String :=
  String.mk (joinChars ' ' (words.map String.data))

/-- Python `s.lower()`, restricted to the basic latin alphabet
(`Char.toLower` maps `A`-`Z` to `a`-`z` and fixes everything else). -/
def pyLower (s : String) : String :=
  String.mk (s.data.map Char.toLower)

/-- An ASCII upper-case letter, stated on the scalar value. -/
def isAsciiUpper (c : Char) : Bool :=
  65 ≤ c.toNat && c.toNat ≤ 90

theorem splitChars_ne_nil (sep : Char) (cs : List Char) : splitChars sep cs ≠ [] := by
  cases cs with
  | nil => simp [splitChars]
  | cons c rest =>
    cases h : splitChars sep rest with
    | nil => exact absurd h (splitChars_ne_nil sep rest)
    | cons q qs =>
      by_cases hc : c = sep <;> simp [splitChars, h, hc]

theorem length_splitChars_pos (sep : Char) (cs : List Char) :
    0 < (splitChars sep cs).length :=
  List.length_pos.mpr (splitChars_ne_nil sep cs)

theorem joinChars_splitChars (sep : Char) (cs : List Char) :
    joinChars sep (splitChars sep cs) = cs := by
  induction cs with
  | nil => rfl
  | cons c rest ih =>
    cases h : splitChars sep rest with
    | nil => exact absurd h (splitChars_ne_nil sep rest)
    | cons q qs =>
      rw [h] at ih
      by_cases hc : c = sep
      · subst hc
        simp only [splitChars, if_pos rfl, h, joinChars]
        exact congrArg (c :: ·) ih
      · simp only [splitChars, if_neg hc, h, List.modifyHead]
        cases qs with
        | nil => simpa [joinChars] using congrArg (c :: ·) ih
        | cons p ps => simpa [joinChars] using congrArg (c :: ·) ih

theorem not_mem_of_mem_splitChars (sep : Char) (cs : List Char) :
    ∀ piece ∈ splitChars sep cs, sep ∉ piece := by
  induction cs with
  | nil =>
    intro piece hp
    simp [splitChars] at hp
    simp [hp]
  | cons c rest ih =>
    intro piece hp
    cases h : splitChars sep rest with
    | nil => exact absurd h (splitChars_ne_nil sep rest)
    | cons q qs =>
      rw [h] at ih
      by_cases hc : c = sep
      · rw [splitChars, if_pos hc, h] at hp
        rcases List.mem_cons.mp hp with h1 | h1
        · subst h1; simp
        · exact ih piece h1
      · rw [splitChars, if_neg hc, h] at hp
        simp only [List.modifyHead] at hp
        rcases List.mem_cons.mp hp with h1 | h1
        · subst h1
          intro hmem
          rcases List.mem_cons.mp hmem with h2 | h2
          · exact hc h2.symm
          · exact ih q (List.mem_cons_self q qs) h2
        · exact ih piece (List.mem_cons.mpr (Or.inr h1))

theorem splitChars_sepfree (sep : Char) (piece : List Char) (h : sep ∉ piece) :
    splitChars sep piece = [piece] := by
  induction piece with
  | nil => rfl
  | cons c rest ih =>
    have hc : c ≠ sep := fun hcs => h (hcs ▸ List.mem_cons_self c rest)
    have hrest : sep ∉ rest := fun hm => h (List.mem_cons.mpr (Or.inr hm))
    rw [splitChars, if_neg hc, ih hrest]
    rfl

theorem splitChars_append_sep (sep : Char) (piece cs : List Char) (h : sep ∉ piece) :
    splitChars sep (piece ++ sep :: cs) = piece :: splitChars sep cs := by
  induction piece with
  | nil =>
    rw [List.nil_append, splitChars, if_pos rfl]
  | cons c rest ih =>
    have hc : c ≠ sep := fun hcs => h (hcs ▸ List.mem_cons_self c rest)
    have hrest : sep ∉ rest := fun hm => h (List.mem_cons.mpr (Or.inr hm))
    rw [List.cons_append, splitChars, if_neg hc, ih hrest]
    rfl

theorem splitChars_joinChars (sep : Char) (pieces : List (List Char))
    (hne : pieces ≠ []) (hfree : ∀ piece ∈ pieces, sep ∉ piece) :
    splitChars sep (joinChars sep pieces) = pieces := by
  induction pieces with
  | nil => exact absurd rfl hne
  | cons piece rest ih =>
    cases rest with
    | nil =>
      exact splitChars_sepfree sep piece (hfree piece (List.mem_cons_self piece []))
    | cons q qs =>
      have hjoin : joinChars sep (piece :: q :: qs) = piece ++ sep :: joinChars sep (q :: qs) := rfl
      rw [hjoin, splitChars_append_sep sep piece _ (hfree piece (List.mem_cons_self piece _))]
      rw [ih (by simp) (fun p hp => hfree p (List.mem_cons.mpr (Or.inr hp)))]

theorem toNat_ofNat_of_isValidChar (n : Nat) (h : n.isValidChar) :
    (Char.ofNat n).toNat = n := by
  rw [Char.ofNat, dif_pos h]
  rfl

theorem toNat_toLower_of_upper {c : Char} (h : 65 ≤ c.toNat ∧ c.toNat ≤ 90) :
    (Char.toLower c).toNat = c.toNat + 32 := by
  rw [Char.toLower, if_pos ⟨h.1, h.2⟩]
  exact toNat_ofNat_of_isValidChar _ (Or.inl (by omega))

theorem toLower_of_not_upper {c : Char} (h : ¬(65 ≤ c.toNat ∧ c.toNat ≤ 90)) :
    Char.toLower c = c := by
  rw [Char.toLower, if_neg h]

theorem isAsciiUpper_toLower (c : Char) : isAsciiUpper (Char.toLower c) = false := by
  by_cases h : 65 ≤ c.toNat ∧ c.toNat ≤ 90
  · have hn := toNat_toLower_of_upper h
    simp only [isAsciiUpper, hn]
    simp only [Bool.and_eq_false_iff, decide_eq_false_iff_not, not_le]
    omega
  · rw [toLower_of_not_upper h]
    simp only [isAsciiUpper, Bool.and_eq_false_iff, decide_eq_false_iff_not, not_le]
    omega

theorem eq_of_toLower_eq {c d : Char} (hd : d.toNat < 97 ∨ 122 < d.toNat)
    (h : Char.toLower c = d) : c = d := by
  by_cases hc : 65 ≤ c.toNat ∧ c.toNat ≤ 90
  · exfalso
    have hn := toNat_toLower_of_upper hc
    rw [h] at hn
    omega
  · rw [toLower_of_not_upper hc] at h
    exact h

theorem map_toLower_fix (l target : List Char)
    (htarget : ∀ ch ∈ target, ch.toNat < 97 ∨ 122 < ch.toNat)
    (h : l.map Char.toLower = target) : l = target := by
  induction l generalizing target with
  | nil => simpa using h.symm
  | cons c cs ih =>
    cases target with
    | nil => simp at h
    | cons d ds =>
      rw [List.map_cons, List.cons.injEq] at h
      have hc : c = d :=
        eq_of_toLower_eq (htarget d (List.mem_cons_self d ds)) h.1
      have hcs : cs = ds :=
        ih ds (fun ch hch => htarget ch (List.mem_cons.mpr (Or.inr hch))) h.2
      rw [hc, hcs]

/-! ## Python dict model

Python dictionaries preserve insertion order: assigning to an existing
key updates its value in place, assigning to a fresh key appends the
binding at the end.  An association list with that update rule models a
dict exactly; `dictGet` is subscript lookup. -/

/-- Lookup of a key in the dict (`d[k]`, when present). -/
def dictGet {β : Type} (d : List (String × β)) (k : String) : Option β :=
  (d.find? (fun p => p.1 == k)).map (·.2)

/-- Python `d[k] = v`: update in place if the key is already bound,
otherwise append the new binding at the end. -/
def dictInsert {β : Type} (d : List (String × β)) (k : String) (v : β) :
    List (String × β) :=
  match d with
  | [] => [(k, v)]
  | (k', v') :: rest =>
    if k' = k then (k', v) :: rest else (k', v') :: dictInsert rest k v

theorem dictGet_nil {β : Type} (k : String) : dictGet ([] : List (String × β)) k = none := rfl

theorem dictGet_cons {β : Type} (k' : String) (v' : β) (rest : List (String × β)) (k : String) :
    dictGet ((k', v') :: rest) k = if k' = k then some v' else dictGet rest k := by
  by_cases h : k' = k
  · rw [if_pos h]
    unfold dictGet
    rw [List.find?_cons_of_pos _ (by simp [h])]
    rfl
  · rw [if_neg h]
    unfold dictGet
    rw [List.find?_cons_of_neg _ (by simp [h])]

theorem dictGet_dictInsert_self {β : Type} (d : List (String × β)) (k : String) (v : β) :
    dictGet (dictInsert d k v) k = some v := by
  induction d with
  | nil => simp [dictInsert, dictGet_cons]
  | cons p rest ih =>
    obtain ⟨k', v'⟩ := p
    by_cases h : k' = k
    · simp [dictInsert, h, dictGet_cons]
    · simp [dictInsert, h, dictGet_cons, ih]

theorem dictGet_dictInsert_ne {β : Type} (d : List (String × β)) (k k₀ : String) (v : β)
    (h : k ≠ k₀) : dictGet (dictInsert d k v) k₀ = dictGet d k₀ := by
  induction d with
  | nil => simp [dictInsert, dictGet_cons, dictGet_nil, h]
  | cons p rest ih =>
    obtain ⟨k', v'⟩ := p
    by_cases hk : k' = k
    · subst hk
      simp [dictInsert, dictGet_cons, h]
    · simp [dictInsert, hk, dictGet_cons, ih]

/-- The key list of a dict, in insertion order. -/
def dictKeys {β : Type} (d : List (String × β)) : List String :=
  d.map Prod.fst

theorem dictKeys_dictInsert_of_mem {β : Type} (d : List (String × β)) (k : String) (v : β)
    (h : k ∈ dictKeys d) : dictKeys (dictInsert d k v) = dictKeys d := by
  induction d with
  | nil => simp [dictKeys] at h
  | cons p rest ih =>
    obtain ⟨k', v'⟩ := p
    by_cases hk : k' = k
    · simp [dictInsert, hk, dictKeys]
    · have hmem : k ∈ dictKeys rest := by
        simp only [dictKeys, List.map_cons, List.mem_cons] at h
        exact h.resolve_left (fun he => hk he.symm)
      rw [dictInsert, if_neg hk]
      show k' :: dictKeys (dictInsert rest k v) = k' :: dictKeys rest
      exact congrArg (k' :: ·) (ih hmem)

theorem dictKeys_dictInsert_of_not_mem {β : Type} (d : List (String × β)) (k : String) (v : β)
    (h : k ∉ dictKeys d) : dictKeys (dictInsert d k v) = dictKeys d ++ [k] := by
  induction d with
  | nil => simp [dictKeys, dictInsert]
  | cons p rest ih =>
    obtain ⟨k', v'⟩ := p
    have hk : k' ≠ k := by
      intro he
      exact h (by simp [dictKeys, he])
    have hmem : k ∉ dictKeys rest := by
      intro hm
      exact h (by simp [dictKeys] at hm ⊢; exact Or.inr hm)
    rw [dictInsert, if_neg hk]
    show k' :: dictKeys (dictInsert rest k v) = (k' :: dictKeys rest) ++ [k]
    rw [List.cons_append]
    exact congrArg (k' :: ·) (ih hmem)

theorem dictKeys_nodup_dictInsert {β : Type} (d : List (String × β)) (k : String) (v : β)
    (h : (dictKeys d).Nodup) : (dictKeys (dictInsert d k v)).Nodup := by
  by_cases hm : k ∈ dictKeys d
  · rwa [dictKeys_dictInsert_of_mem d k v hm]
  · rw [dictKeys_dictInsert_of_not_mem d k v hm]
    simp [List.nodup_append, h, hm]

theorem dictGet_eq_none_of_not_mem {β : Type} (d : List (String × β)) (k : String)
    (h : k ∉ dictKeys d) : dictGet d k = none := by
  induction d with
  | nil => rfl
  | cons p rest ih =>
    obtain ⟨k', v'⟩ := p
    have hk : k' ≠ k := fun he => h (by simp [dictKeys, he])
    have hmem : k ∉ dictKeys rest := fun hm => h (by simp [dictKeys] at hm ⊢; exact Or.inr hm)
    rw [dictGet_cons, if_neg hk]
    exact ih hmem

theorem dictGet_isSome_of_mem {β : Type} (d : List (String × β)) (k : String)
    (h : k ∈ dictKeys d) : (dictGet d k).isSome := by
  induction d with
  | nil => simp [dictKeys] at h
  | cons p rest ih =>
    obtain ⟨k', v'⟩ := p
    rw [dictGet_cons]
    by_cases hk : k' = k
    · simp [hk]
    · have hmem : k ∈ dictKeys rest := by
        simp only [dictKeys, List.map_cons, List.mem_cons] at h
        exact h.resolve_left (fun he => hk he.symm)
      simp [hk, ih hmem]

/-! ## The preprocessing pipeline of preprocess.py -/

/-- Characters of Python `string.punctuation`: the ASCII codes 33-47,
58-64, 91-96 and 123-126. -/
def punctuationChars : List Char :=
  ((List.range 128).filter (fun n =>
    (33 ≤ n && n ≤ 47) || (58 ≤ n && n ≤ 64) ||
    (91 ≤ n && n ≤ 96) || (123 ≤ n && n ≤ 126))).map Char.ofNat

/-- The punctuation token list built at lines 29-30 of
tokenize_comments: every character of string.punctuation as a
one-character string, plus the two smart-quote marker tokens the nltk
tokenizer may emit (a double backquote, code 96 twice, and a double
apostrophe, code 39 twice). -/
def punctuations : List String :=
  punctuationChars.map (fun c => String.mk [c]) ++
    [String.mk [Char.ofNat 96, Char.ofNat 96], String.mk [Char.ofNat 39, Char.ofNat 39]]

/-- The per-comment transform of tokenize_comments (lines 38-39),
parameterized by the external tokenizer `nltk.word_tokenize`: drop every
token that is in the punctuation list, lower-case the rest when
`lower_case` is set.  This is the token list before rejoining. -/
def tokenize_words (word_tokenize : String → List String) (lower_case : Bool)
    (comment : String) : List String :=
  ((word_tokenize comment).filter (fun word => !decide (word ∈ punctuations))).map
    (fun word => if lower_case then pyLower word else word)

/-- The value stored back into `comment_text` at line 40:
the filtered token list rejoined with single spaces. -/
def tokenize_comment (word_tokenize : String → List String) (lower_case : Bool)
    (comment : String) : String :=
  pyJoinSpace (tokenize_words word_tokenize lower_case comment)

/-- The token list built by the inner `pad` function of add_padding
(lines 78-84): split on spaces, then either append `padword` until the
target length (`short > 0`, rendered as `length < pad_to` since `short =
pad_to - len(comment_list)` over Python ints) or truncate to the first
`pad_to` tokens. -/
def padTokens (comment : String) (pad_to : Nat) (padword : String) : List String :=
  let comment_list := pySplitSpace comment
  if comment_list.length < pad_to then
    comment_list ++ List.replicate (pad_to - comment_list.length) padword
  else
    comment_list.take pad_to

/-- The inner `pad` function of add_padding (lines 67-86): the padded or
truncated token list rejoined with single spaces. -/
def pad (comment : String) (pad_to : Nat) (padword : String) : String :=
  pyJoinSpace (padTokens comment pad_to padword)

/-- Python `==` between the dict `word_count` and the string `padword`
(line 121 reads `if word_count != padword`): in Python, values of
distinct builtin types such as dict and str are never equal, so this
comparison is false whatever the operands hold. -/
def pyDictEqString (d : List (String × Nat)) (s : String) : Bool :=
  let _ := d
  let _ := s
  false

/-- Processing of one row by count_occurrences (lines 119-122): split
`comment_text` on spaces and, unless the dict compares equal to the pad
word (it never does), increment the defaultdict entry of each word. -/
def countRow (word_count : List (String × Nat)) (comment padword : String) :
    List (String × Nat) :=
  (pySplitSpace comment).foldl
    (fun acc word =>
      if pyDictEqString acc padword then acc
      else dictInsert acc word ((dictGet acc word).getD 0 + 1))
    word_count

/-- Reading a csv with `chunksize = n` yields successive slices of at
most `n` rows: chunk `i` holds the rows `i * n` up to `i * n + n - 1`,
and there are `ceil(length / n)` chunks.  Pandas rejects a nonpositive
chunksize; with `n = 0` this yields no chunks. -/
def chunksOf {α : Type} (n : Nat) (l : List α) : List (List α) :=
  (List.range ((l.length + n - 1) / n)).map (fun i => (l.drop (i * n)).take n)

/-- count_occurrences (lines 114-124): stream the corpus in chunks and
fold every row of every chunk into the word count table. -/
def count_occurrences (corpus : List String) (chunk_size : Nat) (padword : String) :
    List (String × Nat) :=
  (chunksOf chunk_size corpus).foldl
    (fun acc chunk => chunk.foldl (fun a comment => countRow a comment padword) acc)
    []

/-- The enumeration loop of build_vocab (lines 156-160): `idx` is the
Python `enumerate` counter over `word_count.items()`; a word whose count
strictly exceeds the threshold is bound to its enumeration index in the
vocab dict, otherwise it is appended to the uncommon list while that
list is below the limit. -/
def vocabLoop (vocab : List (String × Int)) (uncommon : List String) (idx : Nat)
    (threshold : Int) (uncommon_limit : Nat) :
    List (String × Nat) → List (String × Int) × List String
  | [] => (vocab, uncommon)
  | (word, occurrences) :: rest =>
    if (occurrences : Int) > threshold then
      vocabLoop (dictInsert vocab word idx) uncommon (idx + 1) threshold uncommon_limit rest
    else if uncommon.length < uncommon_limit then
      vocabLoop vocab (uncommon ++ [word]) (idx + 1) threshold uncommon_limit rest
    else
      vocabLoop vocab uncommon (idx + 1) threshold uncommon_limit rest

/-- The in-memory part of build_vocab (lines 153-160): the initial dict
literal binds unknown to -2 and padword to -1, then the word count table
is enumerated.  The first component is the vocab dict, the second is the
uncommon word list driving the optional rewrite. -/
def build_vocab (word_count : List (String × Nat)) (threshold : Int)
    (padword unknown : String) (uncommon_limit : Nat) :
    List (String × Int) × List String :=
  vocabLoop (dictInsert (dictInsert [] unknown (-2)) padword (-1)) [] 0 threshold
    uncommon_limit word_count

/-- The helper _find_replace (lines 198-205): in every row of the
sub-split, replace each word of the uncommon list with the unknown
token and rejoin. -/
def find_replace (uncommon : List String) (unknown : String) (df : List String) :
    List String :=
  df.map (fun comment =>
    pyJoinSpace ((pySplitSpace comment).map
      (fun word => if word ∈ uncommon then unknown else word)))

/-- The sub-split of one chunk across the worker pool (lines 180-181):
`step = chunk_size // processes` and worker `i` receives
`chunk.iloc[i * step : (i + 1) * step]`. -/
def chunk_splits {α : Type} (chunk : List α) (chunk_size processes : Nat) :
    List (List α) :=
  (List.range processes).map
    (fun i => (chunk.drop (i * (chunk_size / processes))).take (chunk_size / processes))

/-- The parallel phase for one chunk (lines 179-183): starmap applies
_find_replace to every sub-split, results come back in submission
order, and pd.concat reassembles them. -/
def process_chunk (uncommon : List String) (unknown : String)
    (chunk_size processes : Nat) (chunk : List String) : List String :=
  ((chunk_splits chunk chunk_size processes).map (find_replace uncommon unknown)).flatten

/-- The whole modify=True rewrite of build_vocab (lines 173-191):
chunked read of the source csv, parallel per-chunk rewrite, and the
output rows appended chunk by chunk (write mode for chunk 0, append
mode afterwards). -/
def rewrite_corpus (uncommon : List String) (unknown : String)
    (chunk_size processes : Nat) (corpus : List String) : List String :=
  ((chunksOf chunk_size corpus).map
    (process_chunk uncommon unknown chunk_size processes)).flatten

/-- Truthiness of an optional Python string: None and the empty string
are falsy, every other string is truthy. -/
def pyTruthy : Option String → Bool
  | none => false
  | some s => !s.isEmpty

/-- The argument validation of build_vocab (lines 165-167): when modify
is requested, ValueError is raised iff `not file_dir and not file_name`,
that is, only when both paths are missing. -/
def build_vocab_raises_value_error (file_dir file_name : Option String) : Bool :=
  !pyTruthy file_dir && !pyTruthy file_name

/-! ## Slicing lemmas

Both the chunked read (`chunksOf`) and the per-chunk worker sub-split
(`chunk_splits`) are families of `drop`/`take` slices indexed by
`List.range`: concatenating `k` consecutive slices of width `s`
recovers the first `k * s` rows. -/

theorem flatten_slices {α : Type} (s k : Nat) (l : List α) :
    ((List.range k).map (fun i => (l.drop (i * s)).take s)).flatten = l.take (k * s) := by
  induction k with
  | zero => simp
  | succ k ih =>
    rw [List.range_succ, List.map_append, List.flatten_append]
    simp only [List.map_cons, List.map_nil, List.flatten_cons, List.flatten_nil,
      List.append_nil]
    rw [ih, Nat.succ_mul, List.take_add]

theorem le_ceilDiv_mul (m n : Nat) (hn : 1 ≤ n) : m ≤ ((m + n - 1) / n) * n := by
  rcases Nat.eq_zero_or_pos m with hm | hm
  · simp [hm]
  · have h1 : m + n - 1 = (m - 1) + n := by omega
    rw [h1, Nat.add_div_right _ hn, Nat.succ_mul, Nat.mul_comm]
    have h2 := Nat.div_add_mod (m - 1) n
    have h3 : (m - 1) % n < n := Nat.mod_lt _ hn
    omega

theorem flatten_chunksOf {α : Type} (n : Nat) (hn : 1 ≤ n) (l : List α) :
    (chunksOf n l).flatten = l := by
  unfold chunksOf
  rw [flatten_slices]
  exact List.take_of_length_le (le_ceilDiv_mul l.length n hn)

theorem length_le_of_mem_chunksOf {α : Type} (n : Nat) (l : List α) (c : List α)
    (hc : c ∈ chunksOf n l) : c.length ≤ n := by
  unfold chunksOf at hc
  rcases List.mem_map.mp hc with ⟨i, _, rfl⟩
  exact List.length_take_le n _

theorem foldl_chunksOf {α β : Type} (f : β → α → β) (n : Nat) (hn : 1 ≤ n)
    (l : List α) (init : β) :
    (chunksOf n l).foldl (fun a c => c.foldl f a) init = l.foldl f init := by
  rw [← List.foldl_flatten, flatten_chunksOf n hn]

theorem flatten_chunk_splits {α : Type} (chunk : List α) (chunk_size processes : Nat) :
    (chunk_splits chunk chunk_size processes).flatten
      = chunk.take (processes * (chunk_size / processes)) := by
  unfold chunk_splits
  rw [flatten_slices, Nat.mul_comm]

/-! ## Counting lemmas -/

theorem getD_dictInsert_bump (d : List (String × Nat)) (k w : String) :
    (dictGet (dictInsert d k ((dictGet d k).getD 0 + 1)) w).getD 0
      = (dictGet d w).getD 0 + if k = w then 1 else 0 := by
  by_cases h : k = w
  · subst h
    rw [dictGet_dictInsert_self]
    simp
  · rw [dictGet_dictInsert_ne d k w _ h]
    simp [h]

theorem countTokens_getD (padword : String) (tokens : List String)
    (acc : List (String × Nat)) (w : String) :
    (dictGet (tokens.foldl (fun acc word =>
        if pyDictEqString acc padword then acc
        else dictInsert acc word ((dictGet acc word).getD 0 + 1)) acc) w).getD 0
      = (dictGet acc w).getD 0 + tokens.count w := by
  induction tokens generalizing acc with
  | nil => simp
  | cons t ts ih =>
    rw [List.foldl_cons]
    have hstep : (if pyDictEqString acc padword then acc
        else dictInsert acc t ((dictGet acc t).getD 0 + 1))
        = dictInsert acc t ((dictGet acc t).getD 0 + 1) := by
      simp [pyDictEqString]
    rw [hstep, ih, getD_dictInsert_bump, List.count_cons]
    by_cases h : t = w <;> simp [h] <;> omega

theorem countRow_getD (acc : List (String × Nat)) (comment padword w : String) :
    (dictGet (countRow acc comment padword) w).getD 0
      = (dictGet acc w).getD 0 + (pySplitSpace comment).count w :=
  countTokens_getD padword (pySplitSpace comment) acc w

theorem countRows_getD (rows : List String) (acc : List (String × Nat))
    (padword w : String) :
    (dictGet (rows.foldl (fun a comment => countRow a comment padword) acc) w).getD 0
      = (dictGet acc w).getD 0 + ((rows.map pySplitSpace).flatten).count w := by
  induction rows generalizing acc with
  | nil => simp
  | cons r rs ih =>
    rw [List.foldl_cons, ih, countRow_getD]
    simp only [List.map_cons, List.flatten_cons, List.count_append]
    omega

theorem dictKeys_nodup_countTokens (padword : String) (tokens : List String)
    (acc : List (String × Nat)) (h : (dictKeys acc).Nodup) :
    (dictKeys (tokens.foldl (fun acc word =>
        if pyDictEqString acc padword then acc
        else dictInsert acc word ((dictGet acc word).getD 0 + 1)) acc)).Nodup := by
  induction tokens generalizing acc with
  | nil => exact h
  | cons t ts ih =>
    rw [List.foldl_cons]
    have hstep : (if pyDictEqString acc padword then acc
        else dictInsert acc t ((dictGet acc t).getD 0 + 1))
        = dictInsert acc t ((dictGet acc t).getD 0 + 1) := by
      simp [pyDictEqString]
    rw [hstep]
    exact ih _ (dictKeys_nodup_dictInsert acc t _ h)

theorem dictKeys_nodup_countRows (rows : List String) (acc : List (String × Nat))
    (padword : String) (h : (dictKeys acc).Nodup) :
    (dictKeys (rows.foldl (fun a comment => countRow a comment padword) acc)).Nodup := by
  induction rows generalizing acc with
  | nil => exact h
  | cons r rs ih =>
    rw [List.foldl_cons]
    exact ih _ (dictKeys_nodup_countTokens padword _ acc h)

theorem mem_of_dictGet_eq_some {β : Type} (d : List (String × β)) (k : String) (v : β)
    (h : dictGet d k = some v) : (k, v) ∈ d := by
  unfold dictGet at h
  rcases Option.map_eq_some'.mp h with ⟨p, hfind, hv⟩
  have hpk : p.1 = k := by
    have := List.find?_some hfind
    simpa using this
  have hmem := List.mem_of_find?_eq_some hfind
  have : p = (k, v) := by
    obtain ⟨p1, p2⟩ := p
    simp only at hpk hv
    rw [hpk, hv]
  rwa [this] at hmem

/-! ## Vocabulary lemmas -/

theorem vocabLoop_fst_dictGet_of_never_qualifies (wc : List (String × Nat))
    (vocab : List (String × Int)) (uncommon : List String) (idx : Nat)
    (threshold : Int) (lim : Nat) (k : String)
    (hk : ∀ c : Nat, (k, c) ∈ wc → ¬((c : Int) > threshold)) :
    dictGet (vocabLoop vocab uncommon idx threshold lim wc).1 k = dictGet vocab k := by
  induction wc generalizing vocab uncommon idx with
  | nil => rfl
  | cons p rest ih =>
    obtain ⟨word, occ⟩ := p
    have hrest : ∀ c : Nat, (k, c) ∈ rest → ¬((c : Int) > threshold) :=
      fun c hc => hk c (List.mem_cons.mpr (Or.inr hc))
    rw [vocabLoop]
    by_cases hocc : (occ : Int) > threshold
    · rw [if_pos hocc]
      have hne : word ≠ k := by
        intro he
        exact hk occ (by rw [he]; exact List.mem_cons_self _ _) hocc
      rw [ih _ _ _ hrest, dictGet_dictInsert_ne vocab word k _ hne]
    · rw [if_neg hocc]
      by_cases hlen : uncommon.length < lim
      · rw [if_pos hlen, ih _ _ _ hrest]
      · rw [if_neg hlen, ih _ _ _ hrest]

theorem vocabLoop_fst_dictGet_of_qualifies (wc : List (String × Nat))
    (vocab : List (String × Int)) (uncommon : List String) (idx : Nat)
    (threshold : Int) (lim : Nat) (i : Nat) (hi : i < wc.length)
    (hocc : ((wc.get ⟨i, hi⟩).2 : Int) > threshold)
    (hlater : ∀ j (hj : j < wc.length), i < j → (wc.get ⟨j, hj⟩).1 ≠ (wc.get ⟨i, hi⟩).1) :
    dictGet (vocabLoop vocab uncommon idx threshold lim wc).1 (wc.get ⟨i, hi⟩).1
      = some ((idx : Int) + (i : Int)) := by
  induction wc generalizing vocab uncommon idx i with
  | nil => exact absurd hi (by simp)
  | cons p rest ih =>
    obtain ⟨word, occ⟩ := p
    cases i with
    | zero =>
      simp only [List.get] at hocc hlater ⊢
      rw [vocabLoop, if_pos hocc]
      have hnotkey : ∀ c : Nat, (word, c) ∈ rest → ¬((c : Int) > threshold) := by
        intro c hc _
        rcases List.mem_iff_get.mp hc with ⟨⟨j, hj⟩, hget⟩
        have := hlater (j + 1) (by simpa using Nat.succ_lt_succ hj) (Nat.succ_pos j)
        apply this
        show (rest.get ⟨j, hj⟩).1 = word
        rw [hget]
      rw [vocabLoop_fst_dictGet_of_never_qualifies rest _ _ _ _ _ _ hnotkey,
        dictGet_dictInsert_self]
      simp
    | succ i' =>
      have hi' : i' < rest.length := Nat.lt_of_succ_lt_succ hi
      simp only [List.get] at hocc hlater ⊢
      have hlater' : ∀ j (hj : j < rest.length), i' < j →
          (rest.get ⟨j, hj⟩).1 ≠ (rest.get ⟨i', hi'⟩).1 := by
        intro j hj hij
        exact hlater (j + 1) (Nat.succ_lt_succ hj) (Nat.succ_lt_succ hij)
      rw [vocabLoop]
      by_cases ho : (occ : Int) > threshold
      · rw [if_pos ho, ih _ _ _ _ hi' hocc hlater']
        push_cast
        ring_nf
      · rw [if_neg ho]
        by_cases hlen : uncommon.length < lim
        · rw [if_pos hlen, ih _ _ _ _ hi' hocc hlater']
          push_cast
          ring_nf
        · rw [if_neg hlen, ih _ _ _ _ hi' hocc hlater']
          push_cast
          ring_nf

/-! ## Split and join roundtrip at the String level -/

theorem data_pyJoinSpace (words : List String) :
    (pyJoinSpace words).data = joinChars ' ' (words.map String.data) := rfl

theorem pySplitSpace_pyJoinSpace (words : List String) (hne : words ≠ [])
    (hfree : ∀ t ∈ words, ' ' ∉ t.data) :
    pySplitSpace (pyJoinSpace words) = words := by
  unfold pySplitSpace
  rw [data_pyJoinSpace]
  rw [splitChars_joinChars ' ' (words.map String.data)
    (by simpa using hne)
    (by
      intro piece hp
      rcases List.mem_map.mp hp with ⟨t, ht, rfl⟩
      exact hfree t ht)]
  rw [List.map_map]
  exact List.map_id'' (fun _ => rfl) words

theorem space_not_mem_of_mem_pySplitSpace (s t : String) (ht : t ∈ pySplitSpace s) :
    ' ' ∉ t.data := by
  unfold pySplitSpace at ht
  rcases List.mem_map.mp ht with ⟨piece, hp, rfl⟩
  exact not_mem_of_mem_splitChars ' ' s.data piece hp

theorem padTokens_length (comment : String) (pad_to : Nat) (padword : String) :
    (padTokens comment pad_to padword).length = pad_to := by
  unfold padTokens
  by_cases h : (pySplitSpace comment).length < pad_to
  · rw [if_pos h]
    simp only [List.length_append, List.length_replicate]
    omega
  · rw [if_neg h]
    rw [List.length_take]
    omega

theorem mem_padTokens (comment : String) (pad_to : Nat) (padword t : String)
    (ht : t ∈ padTokens comment pad_to padword) :
    t ∈ pySplitSpace comment ∨ t = padword := by
  unfold padTokens at ht
  by_cases h : (pySplitSpace comment).length < pad_to
  · rw [if_pos h] at ht
    rcases List.mem_append.mp ht with h1 | h1
    · exact Or.inl h1
    · exact Or.inr (List.eq_of_mem_replicate h1)
  · rw [if_neg h] at ht
    exact Or.inl (List.mem_of_mem_take ht)

theorem count_occurrences_getD (corpus : List String)
    (chunk_size : Nat) (padword w : String) (hcs : 1 ≤ chunk_size) :
    (dictGet (count_occurrences corpus chunk_size padword) w).getD 0
      = ((corpus.map pySplitSpace).flatten).count w := by
  unfold count_occurrences
  rw [foldl_chunksOf _ chunk_size hcs corpus]
  have h := countRows_getD corpus [] padword w
  rw [dictGet_nil] at h
  simpa using h

/-- C6: count_occurrences maps each word to exactly its number of
occurrences across all rows of the corpus, splitting each comment on
single spaces (a first occurrence yields count 1, an absent word yields
0); the count is exact for every word including the pad token, whose
exclusion check at line 121 compares the dict to a string and therefore
never excludes anything. -/
theorem count_occurrences_counts_every_word (corpus : List String)
    (chunk_size : Nat) (padword w : String) (hcs : 1 ≤ chunk_size) :
    (dictGet (count_occurrences corpus chunk_size padword) w).getD 0
      = ((corpus.map pySplitSpace).flatten).count w :=
  count_occurrences_getD corpus chunk_size padword w hcs

/-- Witness for C6 at a concrete corpus: the pad token itself is
counted. -/
theorem count_occurrences_counts_every_word_witness :
    (dictGet (count_occurrences ["a <pad>", "a"] 1 "<pad>") "<pad>").getD 0
      = ((["a <pad>", "a"].map pySplitSpace).flatten).count "<pad>" :=
  count_occurrences_counts_every_word ["a <pad>", "a"] 1 "<pad>" "<pad>" (by decide)

theorem joinChars_cons_cons (sep : Char) (p q : List Char) (qs : List (List Char)) :
    joinChars sep (p :: q :: qs) = p ++ sep :: joinChars sep (q :: qs) := rfl

theorem pySplitSpace_pad (comment : String) (pad_to : Nat) (hL : 1 ≤ pad_to) :
    pySplitSpace (pad comment pad_to "<pad>") = padTokens comment pad_to "<pad>" := by
  unfold pad
  apply pySplitSpace_pyJoinSpace
  · intro hnil
    have h := padTokens_length comment pad_to "<pad>"
    rw [hnil] at h
    simp at h
    omega
  · intro t ht
    rcases mem_padTokens comment pad_to "<pad>" t ht with h1 | h1
    · exact space_not_mem_of_mem_pySplitSpace comment t h1
    · rw [h1]
      decide

theorem padTokens_empty (pad_to : Nat) (hL : 1 ≤ pad_to) :
    padTokens "" pad_to "<pad>" = "" :: List.replicate (pad_to - 1) "<pad>" := by
  unfold padTokens
  have hsplit : pySplitSpace "" = [""] := rfl
  rw [hsplit]
  by_cases h : ([""] : List String).length < pad_to
  · rw [if_pos h]
    simp only [List.length_cons, List.length_nil] at h
    simp
  · rw [if_neg h]
    simp only [List.length_cons, List.length_nil] at h
    have h1 : pad_to = 1 := by omega
    rw [h1]
    simp

/-- C7: the pad function produces exactly `pad_to` tokens for every
comment and target length: the token list it joins has length exactly
`pad_to` (short comments are extended with the pad word, long ones are
truncated to the first `pad_to` tokens), and for a positive target
length splitting the returned string on spaces recovers exactly that
token list. -/
theorem pad_exact_length (comment : String) (pad_to : Nat) :
    (padTokens comment pad_to "<pad>").length = pad_to
    ∧ (1 ≤ pad_to →
        pySplitSpace (pad comment pad_to "<pad>") = padTokens comment pad_to "<pad>") :=
  ⟨padTokens_length comment pad_to "<pad>", pySplitSpace_pad comment pad_to⟩

/-- Witness for C7 at a concrete comment and length. -/
theorem pad_exact_length_witness :
    pySplitSpace (pad "a b" 5 "<pad>") = padTokens "a b" 5 "<pad>"
    ∧ (padTokens "a b" 5 "<pad>").length = 5 :=
  ⟨(pad_exact_length "a b" 5).2 (by decide), (pad_exact_length "a b" 5).1⟩

/-- C9 counterexample: at target length 1 the padded empty comment is
the empty string, so the returned string does not begin with a space as
the claim asserts for every target length of at least 1. -/
theorem pad_empty_length_one_not_space :
    pad "" 1 "<pad>" = ""
    ∧ (pad "" 1 "<pad>").data.head? ≠ some ' ' := by decide

/-- C9 (amended): padding the empty comment to length `L ≥ 1` yields
the empty-string token followed by `L - 1` pad tokens rather than `L`
pad tokens, and for `L ≥ 2` (though not for `L = 1`) the returned
string begins with a space. -/
theorem pad_empty_amended (pad_to : Nat) (hL : 1 ≤ pad_to) :
    pySplitSpace (pad "" pad_to "<pad>") = "" :: List.replicate (pad_to - 1) "<pad>"
    ∧ pad "" pad_to "<pad>" ≠ pyJoinSpace (List.replicate pad_to "<pad>")
    ∧ (2 ≤ pad_to → (pad "" pad_to "<pad>").data.head? = some ' ') := by
  have htok := padTokens_empty pad_to hL
  have hsplitjoin := (pySplitSpace_pad "" pad_to hL).trans htok
  refine ⟨hsplitjoin, ?_, ?_⟩
  · intro heq
    have h1 : pySplitSpace (pyJoinSpace (List.replicate pad_to "<pad>"))
        = List.replicate pad_to "<pad>" := by
      apply pySplitSpace_pyJoinSpace
      · intro hnil
        have h2 := congrArg List.length hnil
        simp at h2
        omega
      · intro t ht
        rw [List.eq_of_mem_replicate ht]
        decide
    rw [heq, h1] at hsplitjoin
    obtain ⟨m, hm⟩ : ∃ m, pad_to = m + 1 := ⟨pad_to - 1, by omega⟩
    rw [hm, List.replicate_succ] at hsplitjoin
    have h3 : ("<pad>" : String) = "" := (List.cons.injEq .. ▸ hsplitjoin).1
    exact absurd h3 (by decide)
  · intro h2
    obtain ⟨m, hm⟩ : ∃ m, pad_to - 1 = m + 1 := ⟨pad_to - 2, by omega⟩
    unfold pad
    rw [htok, hm, List.replicate_succ]
    rw [show pyJoinSpace ("" :: "<pad>" :: List.replicate m "<pad>")
      = String.mk (joinChars ' ' ([] :: "<pad>".data ::
          (List.replicate m ("<pad>" : String)).map String.data)) from rfl]
    rw [joinChars_cons_cons]
    simp

/-- C3 counterexample: when the pad token itself appears in the word
count table with a count exceeding the threshold, the enumeration loop
overwrites the reserved pad entry with an enumeration index, so the pad
token no longer maps to -1. -/
theorem build_vocab_pad_entry_overwritten :
    dictGet (build_vocab [("<pad>", 4)] 3 "<pad>" "<unk>" 500).1 "<pad>" = some 0
    ∧ dictGet (build_vocab [("<pad>", 4)] 3 "<pad>" "<unk>" 500).1 "<pad>" ≠ some (-1) := by
  decide

/-- C3 (amended): the vocabulary maps the unknown token to -2 and the
pad token to -1 for every word count table, threshold and uncommon
limit, provided neither reserved token string itself occurs in the
table with a count strictly exceeding the threshold (such an occurrence
overwrites the reserved entry with an enumeration index). -/
theorem build_vocab_reserved_indices (word_count : List (String × Nat)) (threshold : Int)
    (lim : Nat)
    (hpad : ∀ c : Nat, ("<pad>", c) ∈ word_count → ¬((c : Int) > threshold))
    (hunk : ∀ c : Nat, ("<unk>", c) ∈ word_count → ¬((c : Int) > threshold)) :
    dictGet (build_vocab word_count threshold "<pad>" "<unk>" lim).1 "<unk>" = some (-2)
    ∧ dictGet (build_vocab word_count threshold "<pad>" "<unk>" lim).1 "<pad>" = some (-1) := by
  unfold build_vocab
  constructor
  · rw [vocabLoop_fst_dictGet_of_never_qualifies word_count _ _ _ _ _ _ hunk]
    decide
  · rw [vocabLoop_fst_dictGet_of_never_qualifies word_count _ _ _ _ _ _ hpad]
    decide

/-- Witness for the amended C3 at a concrete word count table. -/
theorem build_vocab_reserved_indices_witness :
    dictGet (build_vocab [("the", 5)] 3 "<pad>" "<unk>" 500).1 "<unk>" = some (-2)
    ∧ dictGet (build_vocab [("the", 5)] 3 "<pad>" "<unk>" 500).1 "<pad>" = some (-1) :=
  build_vocab_reserved_indices [("the", 5)] 3 500
    (by intro c hc; simp at hc) (by intro c hc; simp at hc)

/-- C4 counterexample: with word count table enumerating ("a", 1) then
("b", 5) at threshold 3, the only real word "b" receives index 1, its
enumeration position, so real-word indices do not start at 0 and have a
gap at 0. -/
theorem build_vocab_real_index_gap :
    (build_vocab [("a", 1), ("b", 5)] 3 "<pad>" "<unk>" 500).1
      = [("<unk>", -2), ("<pad>", -1), ("b", 1)]
    ∧ dictGet (build_vocab [("a", 1), ("b", 5)] 3 "<pad>" "<unk>" 500).1 "b" = some 1
    ∧ dictGet (build_vocab [("a", 1), ("b", 5)] 3 "<pad>" "<unk>" 500).1 "b" ≠ some 0 := by
  decide

theorem build_vocab_dictGet_of_qualifies (word_count : List (String × Nat))
    (threshold : Int) (lim : Nat) (hnd : (word_count.map Prod.fst).Nodup)
    (i : Nat) (hi : i < word_count.length)
    (hocc : (((word_count.get ⟨i, hi⟩).2 : Int)) > threshold) :
    dictGet (build_vocab word_count threshold "<pad>" "<unk>" lim).1
        (word_count.get ⟨i, hi⟩).1 = some (i : Int) := by
  unfold build_vocab
  have hlater : ∀ j (hj : j < word_count.length), i < j →
      (word_count.get ⟨j, hj⟩).1 ≠ (word_count.get ⟨i, hi⟩).1 := by
    intro j hj hij hne
    have hlen : word_count.length = (word_count.map Prod.fst).length := by simp
    have h1 : (word_count.map Prod.fst).get ⟨j, hlen ▸ hj⟩ = (word_count.get ⟨j, hj⟩).1 :=
      List.get_map Prod.fst
    have h2 : (word_count.map Prod.fst).get ⟨i, hlen ▸ hi⟩ = (word_count.get ⟨i, hi⟩).1 :=
      List.get_map Prod.fst
    have h3 : (word_count.map Prod.fst).get ⟨j, hlen ▸ hj⟩
        = (word_count.map Prod.fst).get ⟨i, hlen ▸ hi⟩ := by
      rw [h1, h2, hne]
    have h4 := List.nodup_iff_injective_get.mp hnd h3
    have h5 : j = i := congrArg Fin.val h4
    omega
  have h := vocabLoop_fst_dictGet_of_qualifies word_count
    (dictInsert (dictInsert [] "<unk>" (-2)) "<pad>" (-1)) [] 0 threshold lim i hi
    hocc hlater
  simpa using h

/-- C4 (amended): for a word count table with distinct words, every
word whose count strictly exceeds the threshold appears in the
vocabulary bound to the non-negative index equal to its enumeration
position in the table (hence distinct qualifying words receive distinct
indices, increasing in enumeration order, but the indices skip the
positions of non-qualifying words and need not start at 0). -/
theorem build_vocab_qualifying_word_index (word_count : List (String × Nat))
    (threshold : Int) (lim : Nat) (hnd : (word_count.map Prod.fst).Nodup)
    (i : Nat) (hi : i < word_count.length)
    (hocc : (((word_count.get ⟨i, hi⟩).2 : Int)) > threshold) :
    dictGet (build_vocab word_count threshold "<pad>" "<unk>" lim).1
        (word_count.get ⟨i, hi⟩).1 = some (i : Int)
    ∧ (0 : Int) ≤ (i : Int) :=
  ⟨build_vocab_dictGet_of_qualifies word_count threshold lim hnd i hi hocc,
    Int.natCast_nonneg i⟩

/-- Witness for the amended C4: the qualifying word "hot" at
enumeration position 1 gets index 1. -/
theorem build_vocab_qualifying_word_index_witness :
    dictGet (build_vocab [("low", 1), ("hot", 7)] 3 "<pad>" "<unk>" 500).1 "hot"
      = some (1 : Int)
    ∧ (0 : Int) ≤ (1 : Int) :=
  build_vocab_qualifying_word_index [("low", 1), ("hot", 7)] 3 500
    (by decide) 1 (by decide) (by decide)

/-- C5: evaluation of the argument validation at the failing input:
with only the source directory supplied (file name missing) the check
does not raise the configuration error, because line 166 requires both
arguments to be falsy (`not file_dir and not file_name`); the error is
raised only when both paths are missing. -/
theorem build_vocab_path_check_eval :
    build_vocab_raises_value_error (some "data") none = false
    ∧ build_vocab_raises_value_error none (some "train.csv") = false
    ∧ build_vocab_raises_value_error none none = true := by decide

/-- C1: evaluation at the failing input: with chunk size 3 and 2
workers, a full 3-row chunk loses its last row in the sub-split of the
rewrite (step = 3 // 2 = 1, so the workers cover rows 0 and 1 only),
while the plain unparallelized per-row transform keeps all 3 rows. -/
theorem rewrite_corpus_drops_rows :
    rewrite_corpus [] "<unk>" 3 2 ["a", "b", "c"] = ["a", "b"]
    ∧ rewrite_corpus [] "<unk>" 3 2 ["a", "b", "c"] ≠ ["a", "b", "c"]
    ∧ find_replace [] "<unk>" ["a", "b", "c"] = ["a", "b", "c"] := by decide

/-- C2: evaluation at the failing input: the same rewrite over the same
corpus produces 3 rows with 1 worker but only 2 rows with 2 workers, so
the 1-worker and N-worker outputs are not identical. -/
theorem rewrite_corpus_worker_count_matters :
    rewrite_corpus ["b"] "<unk>" 3 1 ["a", "b", "c"] = ["a", "<unk>", "c"]
    ∧ rewrite_corpus ["b"] "<unk>" 3 2 ["a", "b", "c"] = ["a", "<unk>"]
    ∧ rewrite_corpus ["b"] "<unk>" 3 1 ["a", "b", "c"]
        ≠ rewrite_corpus ["b"] "<unk>" 3 2 ["a", "b", "c"] := by decide

/-- Witness for the amended C9 at target length 3. -/
theorem pad_empty_amended_witness :
    pySplitSpace (pad "" 3 "<pad>") = "" :: List.replicate 2 "<pad>"
    ∧ pad "" 3 "<pad>" ≠ pyJoinSpace (List.replicate 3 "<pad>")
    ∧ (pad "" 3 "<pad>").data.head? = some ' ' :=
  ⟨(pad_empty_amended 3 (by decide)).1,
    (pad_empty_amended 3 (by decide)).2.1,
    (pad_empty_amended 3 (by decide)).2.2 (by decide)⟩

theorem punctuations_char_ranges :
    ∀ p ∈ punctuations, ∀ ch ∈ p.data, ch.toNat < 97 ∨ 122 < ch.toNat := by decide

/-- C8: with lower-casing enabled, every token kept by the tokenizer
transform is free of ASCII upper-case letters and is not one of the
punctuation-only tokens (the filter removes tokens equal to a
string.punctuation character or to one of the two smart-quote markers),
and when the underlying nltk tokenizer yields no tokens on the empty
string the stored result is the empty string. -/
theorem tokenize_lowercase_no_punct (word_tokenize : String → List String)
    (comment : String) :
    (∀ t ∈ tokenize_words word_tokenize true comment,
        t.data.all (fun ch => !(isAsciiUpper ch)) = true ∧ t ∉ punctuations)
    ∧ (word_tokenize "" = [] → tokenize_comment word_tokenize true "" = "") := by
  constructor
  · intro t ht
    unfold tokenize_words at ht
    rcases List.mem_map.mp ht with ⟨w, hw, rfl⟩
    have hwnp : w ∉ punctuations := by
      have h1 := (List.mem_filter.mp hw).2
      simpa using h1
    rw [if_pos rfl]
    constructor
    · rw [List.all_eq_true]
      intro ch hch
      have hdata : (pyLower w).data = w.data.map Char.toLower := rfl
      rw [hdata] at hch
      rcases List.mem_map.mp hch with ⟨c, _, rfl⟩
      rw [isAsciiUpper_toLower]
      rfl
    · intro hmem
      have h1 := map_toLower_fix w.data (pyLower w).data
        (punctuations_char_ranges (pyLower w) hmem) rfl
      have h2 : w = pyLower w := congrArg String.mk h1
      exact hwnp (h2 ▸ hmem)
  · intro hwt
    unfold tokenize_comment tokenize_words
    rw [hwt]
    rfl

/-- A concrete stand-in for nltk.word_tokenize used to witness C8. -/
def wordTokenizeEx (s : String) : List String :=
  if s.isEmpty then [] else ["He", "said", "``", "Great", "''", "!"]

/-- Witness for C8: a kept token of a concrete tokenization is
lower-case and not punctuation, and the empty comment tokenizes to the
empty string. -/
theorem tokenize_lowercase_no_punct_witness :
    (("he" : String).data.all (fun ch => !(isAsciiUpper ch)) = true
      ∧ ("he" : String) ∉ punctuations)
    ∧ tokenize_comment wordTokenizeEx true "" = "" :=
  ⟨(tokenize_lowercase_no_punct wordTokenizeEx "He said ``Great''!").1 "he" (by decide),
    (tokenize_lowercase_no_punct wordTokenizeEx "").2 (by decide)⟩

/-- C10: for a corpus containing a row whose comment text is the empty
string, count_occurrences records at least one occurrence of the
empty-string word (splitting the empty string on spaces yields one
empty token), and whenever that recorded count strictly exceeds the
threshold, build_vocab binds the empty string to a real non-negative
enumeration index like any other word. -/
theorem empty_comment_counted_and_indexed (corpus : List String) (chunk_size : Nat)
    (threshold : Int) (lim : Nat) (hcs : 1 ≤ chunk_size) (hmem : "" ∈ corpus) :
    1 ≤ (dictGet (count_occurrences corpus chunk_size "<pad>") "").getD 0
    ∧ (((dictGet (count_occurrences corpus chunk_size "<pad>") "").getD 0 : Int)
          > threshold →
        ∃ i : Nat,
          dictGet (build_vocab (count_occurrences corpus chunk_size "<pad>")
            threshold "<pad>" "<unk>" lim).1 "" = some (i : Int)) := by
  have hcount := count_occurrences_getD corpus chunk_size "<pad>" "" hcs
  have hmem_flat : ("" : String) ∈ (corpus.map pySplitSpace).flatten := by
    apply List.mem_flatten.mpr
    refine ⟨pySplitSpace "", List.mem_map_of_mem pySplitSpace hmem, ?_⟩
    decide
  have hpos : 1 ≤ (dictGet (count_occurrences corpus chunk_size "<pad>") "").getD 0 := by
    rw [hcount]
    exact List.count_pos_iff.mpr hmem_flat
  refine ⟨hpos, ?_⟩
  intro hθ
  set wc := count_occurrences corpus chunk_size "<pad>" with hwc
  obtain ⟨c, hget⟩ : ∃ c, dictGet wc "" = some c := by
    cases hg : dictGet wc "" with
    | none =>
      rw [hg] at hpos
      simp at hpos
    | some c => exact ⟨c, rfl⟩
  have hmemwc : (("" : String), c) ∈ wc := mem_of_dictGet_eq_some wc "" c hget
  obtain ⟨⟨i, hi⟩, hgeti⟩ := List.mem_iff_get.mp hmemwc
  have hnd : (wc.map Prod.fst).Nodup := by
    rw [hwc]
    unfold count_occurrences
    rw [foldl_chunksOf _ chunk_size hcs corpus]
    exact dictKeys_nodup_countRows corpus [] "<pad>" (by simp [dictKeys])
  have hocc : (((wc.get ⟨i, hi⟩).2 : Int)) > threshold := by
    rw [hgeti]
    rw [hget] at hθ
    simpa using hθ
  have h := build_vocab_dictGet_of_qualifies wc threshold lim hnd i hi hocc
  rw [hgeti] at h
  exact ⟨i, h⟩

/-- Witness for C10 at a concrete corpus of two empty comments. -/
theorem empty_comment_counted_and_indexed_witness :
    1 ≤ (dictGet (count_occurrences ["", ""] 5 "<pad>") "").getD 0
    ∧ ∃ i : Nat,
        dictGet (build_vocab (count_occurrences ["", ""] 5 "<pad>")
          1 "<pad>" "<unk>" 500).1 "" = some (i : Int) :=
  ⟨(empty_comment_counted_and_indexed ["", ""] 5 1 500 (by decide) (by decide)).1,
    (empty_comment_counted_and_indexed ["", ""] 5 1 500 (by decide) (by decide)).2
      (by decide)⟩

end Toxic
